/-
  Verification of the jellyfish field-conversion library
  (`utilities/src/conversion.rs`) and the in-circuit rescue Fiat-Shamir
  transcript (`plonk/src/circuit/customized/transcript/mod.rs`).

  Field elements are embedded as natural numbers below the modulus; the
  canonical arkworks representation `into_repr().to_bytes_le()` is embedded
  as a fixed-length little-endian byte list.  Collaborator gadgets (the
  constraint system, the rescue sponge, the truncation gadget) are kept
  abstract, exactly as the code treats them, and their contracts are taken
  from the specification.
-/
import Mathlib

namespace Jellyfish

set_option exponentiation.threshold 600

/-- Description of a prime field as used by the arkworks `PrimeField` trait:
a modulus `p`, the bit length `bits` of the modulus (`size_in_bits`), and the
byte length `reprLen` of the canonical little-endian representation
(`into_repr().to_bytes_le()`, which is `8 * number of limbs` bytes). -/
structure PF where
  p : Nat
  bits : Nat
  reprLen : Nat
  one_lt : 1 < p
  bits_lo : 2 ^ (bits - 1) ≤ p
  bits_hi : p < 2 ^ bits
  repr_fit : p ≤ 2 ^ (8 * reprLen)

/-- Little-endian byte decomposition of `x` at a fixed length `n`
(the embedding of `into_repr().to_bytes_le()` for a field with an
`n`-byte representation). -/
def toBytesLE : Nat → Nat → List Nat
  | 0, _ => []
  | n + 1, x => (x % 256) :: toBytesLE n (x / 256)

/-- Interpret a byte list as a little-endian natural number. -/
def ofLE (l : List Nat) : Nat :=
  l.foldr (fun b acc => b + 256 * acc) 0

/-- Embedding of `from_le_bytes_mod_order` for field `F`. -/
def from_le_bytes_mod_order (F : PF) (l : List Nat) : Nat :=
  ofLE l % F.p

/-- Embedding of `field_switching` (conversion.rs lines 62-76): decode the
source bytes into the target field, re-encode, and compare the overlapping
byte range; the `assert_eq!` abort is modelled as `none`. -/
def field_switching (F T : PF) (x : Nat) : Option Nat :=
  let bytes := toBytesLE F.reprLen x
  let t := from_le_bytes_mod_order T bytes
  let bytes_rec := toBytesLE T.reprLen t
  let length := min bytes.length bytes_rec.length
  if bytes_rec.take length = bytes.take length then some t else none

/-- Embedding of `fq_to_fr_with_mask` (conversion.rs lines 47-56): assert
`T::size_in_bits() < F::size_in_bits()` (failure modelled as `none`), keep
the low `T::size_in_bits() >> 3` bytes of the canonical representation and
decode them into `T`. -/
def fq_to_fr_with_mask (F T : PF) (x : Nat) : Option Nat :=
  if T.bits < F.bits then
    let length := T.bits >>> 3
    some (from_le_bytes_mod_order T ((toBytesLE F.reprLen x).take length))
  else
    none

/-- Rust `slice::chunks`: consecutive chunks of size `k` (the final chunk may
be shorter); empty for `k = 0`, where Rust panics. -/
def chunks (k : Nat) (l : List Nat) : List (List Nat) :=
  if k = 0 ∨ l = [] then [] else l.take k :: chunks k (l.drop k)
termination_by l.length
decreasing_by
  rename_i h
  simp only [not_or] at h
  simp only [List.length_drop]
  exact Nat.sub_lt (List.length_pos.mpr h.2) (Nat.pos_of_ne_zero h.1)

/-- Embedding of `bytes_to_field_elements` (conversion.rs lines 99-123):
pad the input on the right with zero bytes to a multiple of
`floor(size_in_bits / 8)`, chunk, and decode each chunk with
`from_le_bytes_mod_order`. -/
def bytes_to_field_elements (F : PF) (bytes : List Nat) : List Nat :=
  let trunk_length := F.bits / 8
  let padded_length := (bytes.length + trunk_length - 1) / trunk_length * trunk_length
  let padded_bytes := bytes ++ List.replicate (padded_length - bytes.length) 0
  (chunks trunk_length padded_bytes).map (fun c => from_le_bytes_mod_order F c)

/- ### Basic byte lemmas -/

theorem toBytesLE_length (n x : Nat) : (toBytesLE n x).length = n := by
  induction n generalizing x with
  | zero => rfl
  | succ n ih => simp [toBytesLE, ih]

theorem ofLE_toBytesLE (n x : Nat) : ofLE (toBytesLE n x) = x % 256 ^ n := by
  induction n generalizing x with
  | zero => simp [toBytesLE, ofLE, Nat.mod_one]
  | succ n ih =>
    simp only [toBytesLE, ofLE, List.foldr_cons]
    have h1 : ofLE (toBytesLE n (x / 256)) = x / 256 % 256 ^ n := ih (x / 256)
    simp only [ofLE] at h1
    rw [h1, Nat.pow_succ, Nat.mul_comm (256 ^ n) 256, Nat.mod_mul]

theorem take_toBytesLE (k n x : Nat) :
    (toBytesLE n x).take k = toBytesLE (min k n) x := by
  induction n generalizing k x with
  | zero => simp [toBytesLE]
  | succ n ih =>
    cases k with
    | zero => simp [toBytesLE]
    | succ k =>
      simp only [toBytesLE, List.take_succ_cons, ih, Nat.succ_min_succ]

theorem ofLE_lt (l : List Nat) (h : ∀ b ∈ l, b < 256) :
    ofLE l < 256 ^ l.length := by
  induction l with
  | nil => simp [ofLE]
  | cons b t ih =>
    have hb : b < 256 := h b (List.mem_cons_self _ _)
    have ht : ofLE t < 256 ^ t.length := ih (fun y hy => h y (List.mem_cons_of_mem _ hy))
    simp only [ofLE, List.foldr_cons, List.length_cons]
    have : ofLE t ≤ 256 ^ t.length - 1 := Nat.le_sub_one_of_lt ht
    have h2 : 256 * ofLE t ≤ 256 * (256 ^ t.length - 1) := Nat.mul_le_mul_left _ this
    have h3 : 0 < 256 ^ t.length := Nat.pos_pow_of_pos _ (by decide)
    simp only [ofLE] at h2
    calc b + 256 * List.foldr (fun b acc => b + 256 * acc) 0 t
        ≤ b + 256 * (256 ^ t.length - 1) := Nat.add_le_add_left h2 _
      _ < 256 ^ (t.length + 1) := by
          rw [Nat.mul_sub, Nat.pow_succ, Nat.mul_comm (256 ^ t.length) 256]
          omega

theorem pow256_eq (n : Nat) : (256 : Nat) ^ n = 2 ^ (8 * n) := by
  rw [Nat.pow_mul]

/-- `bits - 1 ≤ 8 * reprLen` for any well-formed field. -/
theorem PF.bits_le (F : PF) : F.bits - 1 ≤ 8 * F.reprLen := by
  have h := Nat.le_trans F.bits_lo F.repr_fit
  exact (Nat.pow_le_pow_iff_right (by decide : 1 < 2)).mp h

theorem PF.p_pos (F : PF) : 0 < F.p := Nat.lt_of_lt_of_le (by decide) (Nat.le_of_lt F.one_lt)

/- ### Conversion lemmas -/

/-- Successful safe field switch: when the value fits in both fields the
source bytes decode without reduction and re-encode to the same byte ranges,
so the function returns the same integer value. -/
theorem field_switching_eq_some (F T : PF) (x : Nat) (hF : x < F.p) (hT : x < T.p) :
    field_switching F T x = some x := by
  have hx : x < 2 ^ (8 * F.reprLen) := Nat.lt_of_lt_of_le hF F.repr_fit
  have hdec : ofLE (toBytesLE F.reprLen x) = x := by
    rw [ofLE_toBytesLE, pow256_eq, Nat.mod_eq_of_lt hx]
  simp only [field_switching, from_le_bytes_mod_order, hdec, Nat.mod_eq_of_lt hT,
    toBytesLE_length, take_toBytesLE]
  rw [if_pos]
  congr 1
  omega

/-- The mask conversion computed explicitly: keep the low
`8 * (T.bits / 8)` bits, then reduce modulo the target modulus. -/
theorem fq_to_fr_with_mask_eq (F T : PF) (x : Nat) (h : T.bits < F.bits) :
    fq_to_fr_with_mask F T x = some (x % 2 ^ (8 * (T.bits / 8)) % T.p) := by
  have hlen : T.bits / 8 ≤ F.reprLen := by
    have h1 : T.bits ≤ F.bits - 1 := Nat.le_sub_one_of_lt h
    have h2 : T.bits ≤ 8 * F.reprLen := Nat.le_trans h1 F.bits_le
    have := Nat.div_le_div_right (c := 8) h2
    calc T.bits / 8 ≤ 8 * F.reprLen / 8 := this
      _ = F.reprLen := by rw [Nat.mul_div_cancel_left _ (by decide : 0 < 8)]
  have hsh : T.bits >>> 3 = T.bits / 8 := by
    rw [Nat.shiftRight_eq_div_pow]
  simp only [fq_to_fr_with_mask, if_pos h, from_le_bytes_mod_order, hsh]
  rw [take_toBytesLE, Nat.min_eq_left hlen, ofLE_toBytesLE, pow256_eq]

/-- When the target bit length is not a multiple of 8 the masked value is
already below the target modulus, so no reduction happens. -/
theorem mask_lt_p (T : PF) (x : Nat) (h8 : T.bits % 8 ≠ 0) :
    x % 2 ^ (8 * (T.bits / 8)) < T.p := by
  have hb : 8 * (T.bits / 8) ≤ T.bits - 1 := by
    have := Nat.div_add_mod T.bits 8
    omega
  have h1 : x % 2 ^ (8 * (T.bits / 8)) < 2 ^ (8 * (T.bits / 8)) :=
    Nat.mod_lt _ (Nat.pos_pow_of_pos _ (by decide))
  have h2 : (2:Nat) ^ (8 * (T.bits / 8)) ≤ 2 ^ (T.bits - 1) :=
    Nat.pow_le_pow_right (by decide) hb
  exact Nat.lt_of_lt_of_le (Nat.lt_of_lt_of_le h1 h2) T.bits_lo

/- ### Concrete fields: BLS12-377 scalar field Fr (253 bits, 4 limbs) and
base field Fq (377 bits, 6 limbs). -/

def frBlsP : Nat :=
  8444461749428370424248824938781546531375899335154063827935233455917409239041

def fqBlsP : Nat :=
  258664426012969094010652733694893533536393512754914660539884262666720468348340822774968888139573360124440321458177

def frBls : PF where
  p := frBlsP
  bits := 253
  reprLen := 32
  one_lt := by decide
  bits_lo := by decide
  bits_hi := by decide
  repr_fit := by decide

def fqBls : PF where
  p := fqBlsP
  bits := 377
  reprLen := 48
  one_lt := by decide
  bits_lo := by decide
  bits_hi := by decide
  repr_fit := by decide

/- ### Chunking lemmas -/

theorem chunks_nil (k : Nat) : chunks k [] = [] := by
  rw [chunks]
  simp

theorem chunks_cons (k : Nat) (l : List Nat) (hk : k ≠ 0) (hl : l ≠ []) :
    chunks k l = l.take k :: chunks k (l.drop k) := by
  rw [chunks]
  simp [hk, hl]

theorem chunks_length (k : Nat) (hk : 0 < k) (l : List Nat) :
    (chunks k l).length = (l.length + k - 1) / k := by
  by_cases hl : l = []
  · subst hl
    rw [chunks_nil]
    simp only [List.length_nil, List.length]
    symm
    exact Nat.div_eq_of_lt (by omega)
  · rw [chunks_cons k l (Nat.pos_iff_ne_zero.mp hk) hl]
    have hlp : 0 < l.length := List.length_pos.mpr hl
    have ih := chunks_length k hk (l.drop k)
    simp only [List.length_cons, ih, List.length_drop]
    have key : (l.length - k + k - 1) / k = (l.length - 1) / k := by
      rcases Nat.le_total k l.length with hle | hle
      · congr 1
        omega
      · have h1 : l.length - k = 0 := by omega
        rw [h1]
        rw [Nat.div_eq_of_lt (by omega), Nat.div_eq_of_lt (by omega)]
    rw [key, show l.length + k - 1 = (l.length - 1) + k by omega, Nat.add_div_right _ hk]
termination_by l.length
decreasing_by
  simp only [List.length_drop]
  omega

theorem chunks_mem (k : Nat) (l c : List Nat) (hc : c ∈ chunks k l) :
    c.length ≤ k ∧ ∀ x ∈ c, x ∈ l := by
  by_cases hk : k = 0
  · subst hk
    rw [chunks] at hc
    simp at hc
  · by_cases hl : l = []
    · subst hl
      rw [chunks_nil] at hc
      simp at hc
    · rw [chunks_cons k l hk hl] at hc
      rcases List.mem_cons.mp hc with rfl | hmem
      · refine ⟨?_, fun x hx => List.take_subset _ _ hx⟩
        rw [List.length_take]
        exact Nat.min_le_left _ _
      · have ih := chunks_mem k (l.drop k) c hmem
        exact ⟨ih.1, fun x hx => List.drop_subset _ _ (ih.2 x hx)⟩
termination_by l.length
decreasing_by
  simp only [List.length_drop]
  have hlp : 0 < l.length := List.length_pos.mpr hl
  have hkp : 0 < k := Nat.pos_of_ne_zero hk
  omega

/-- A chunk of at most `F.bits / 8` bytes decodes strictly below the modulus
when the bit length is not a multiple of 8. -/
theorem chunk_decode_lt (F : PF) (h8 : F.bits % 8 ≠ 0) (c : List Nat)
    (hlen : c.length ≤ F.bits / 8) (hb : ∀ x ∈ c, x < 256) : ofLE c < F.p := by
  have h1 : ofLE c < 256 ^ c.length := ofLE_lt c hb
  have h2 : (256:Nat) ^ c.length ≤ 256 ^ (F.bits / 8) :=
    Nat.pow_le_pow_right (by decide) hlen
  have h3 : (256:Nat) ^ (F.bits / 8) = 2 ^ (8 * (F.bits / 8)) := pow256_eq _
  have h4 : 8 * (F.bits / 8) ≤ F.bits - 1 := by
    have := Nat.div_add_mod F.bits 8
    omega
  have h5 : (2:Nat) ^ (8 * (F.bits / 8)) ≤ 2 ^ (F.bits - 1) :=
    Nat.pow_le_pow_right (by decide) h4
  have h6 := F.bits_lo
  omega

/-- The spec's description of the right zero padding: extend `b` to the next
multiple of the chunk size `t`. -/
def zero_padded (t : Nat) (b : List Nat) : List Nat :=
  b ++ List.replicate ((b.length + t - 1) / t * t - b.length) 0

theorem le_ceil_mul (t len : Nat) (ht : 0 < t) : len ≤ (len + t - 1) / t * t := by
  rcases Nat.eq_zero_or_pos len with h0 | hpos
  · rw [h0]
    exact Nat.zero_le _
  · have hm : (len + t - 1) / t = (len - 1) / t + 1 := by
      rw [show len + t - 1 = (len - 1) + t by omega, Nat.add_div_right _ ht]
    have hlt : len - 1 < (len + t - 1) / t * t := by
      refine (Nat.div_lt_iff_lt_mul ht).mp ?_
      rw [hm]
      omega
    exact Nat.le_of_pred_lt hlt

theorem zero_padded_length (t : Nat) (ht : 0 < t) (b : List Nat) :
    (zero_padded t b).length = (b.length + t - 1) / t * t := by
  have h := le_ceil_mul t b.length ht
  simp only [zero_padded, List.length_append, List.length_replicate]
  omega

theorem ceil_mul_div (t m : Nat) (ht : 0 < t) : (m * t + t - 1) / t = m := by
  have h1 : m * t + t - 1 = (t - 1) + m * t := by
    generalize m * t = q
    omega
  rw [h1, Nat.add_mul_div_right _ _ ht, Nat.div_eq_of_lt (by omega)]
  omega

theorem bytes_to_field_elements_eq (F : PF) (b : List Nat)
    (hbytes : ∀ x ∈ b, x < 256) (h8 : F.bits % 8 ≠ 0) :
    bytes_to_field_elements F b
      = (chunks (F.bits / 8) (zero_padded (F.bits / 8) b)).map ofLE := by
  apply List.map_congr_left
  intro c hc
  have hm := chunks_mem (F.bits / 8) (zero_padded (F.bits / 8) b) c hc
  have hball : ∀ x ∈ zero_padded (F.bits / 8) b, x < 256 := by
    intro x hx
    rcases List.mem_append.mp hx with hx | hx
    · exact hbytes x hx
    · rw [List.eq_of_mem_replicate hx]
      decide
  exact Nat.mod_eq_of_lt
    (chunk_decode_lt F h8 c hm.1 (fun x hx => hball x (hm.2 x hx)))

theorem bytes_to_field_elements_length (F : PF) (b : List Nat) (ht : 0 < F.bits / 8) :
    (bytes_to_field_elements F b).length = (b.length + F.bits / 8 - 1) / (F.bits / 8) := by
  have h1 : bytes_to_field_elements F b
      = (chunks (F.bits / 8) (zero_padded (F.bits / 8) b)).map
          (from_le_bytes_mod_order F) := rfl
  rw [h1, List.length_map, chunks_length _ ht, zero_padded_length _ ht,
    ceil_mul_div _ _ ht]

theorem zero_padded_append_zeros (t : Nat) (ht : 0 < t) (b : List Nat) (k : Nat)
    (hk : b.length + k ≤ (b.length + t - 1) / t * t) :
    zero_padded t (b ++ List.replicate k 0) = zero_padded t b := by
  have hm' : (b.length + k + t - 1) / t = (b.length + t - 1) / t := by
    apply Nat.le_antisymm
    · apply Nat.lt_succ_iff.mp
      apply (Nat.div_lt_iff_lt_mul ht).mpr
      rw [Nat.succ_mul]
      revert hk
      generalize (b.length + t - 1) / t * t = q
      intro hk
      omega
    · apply Nat.div_le_div_right
      omega
  simp only [zero_padded, List.length_append, List.length_replicate, hm']
  rw [List.append_assoc, ← List.replicate_add]
  congr 2
  revert hk
  generalize (b.length + t - 1) / t * t = q
  intro hk
  omega

theorem bytes_to_field_elements_append_zeros (F : PF) (b : List Nat)
    (ht : 0 < F.bits / 8) (k : Nat)
    (hk : b.length + k ≤ (b.length + F.bits / 8 - 1) / (F.bits / 8) * (F.bits / 8)) :
    bytes_to_field_elements F (b ++ List.replicate k 0) = bytes_to_field_elements F b := by
  have h1 : ∀ x : List Nat, bytes_to_field_elements F x
      = (chunks (F.bits / 8) (zero_padded (F.bits / 8) x)).map
          (from_le_bytes_mod_order F) := fun _ => rfl
  rw [h1, h1, zero_padded_append_zeros _ ht _ _ hk]

/- ### Claim theorems for the conversion library -/

/-- Claim C4: for every source-field element `x`, `field_switching` returns a
target element with the same integer value whenever that value is
representable in both fields, and it aborts exactly when the re-encoded
target bytes disagree with the source bytes on the overlapping byte range. -/
theorem field_switching_round_trip_spec (F T : PF) (x : Nat) :
    (x < F.p → x < T.p → field_switching F T x = some x)
    ∧ (field_switching F T x = none ↔
        ¬ (toBytesLE T.reprLen (from_le_bytes_mod_order T (toBytesLE F.reprLen x))).take
            (min F.reprLen T.reprLen)
          = (toBytesLE F.reprLen x).take (min F.reprLen T.reprLen)) := by
  refine ⟨field_switching_eq_some F T x, ?_⟩
  simp only [field_switching, toBytesLE_length]
  split
  · rename_i h
    simp [h]
  · rename_i h
    simp [h]

/-- Witness for claim C4 at the BLS12-377 base/scalar field pair and `x = 3`. -/
theorem field_switching_round_trip_spec_witness :
    3 < fqBls.p ∧ 3 < frBls.p ∧ field_switching fqBls frBls 3 = some 3 :=
  ⟨by decide, by decide,
    (field_switching_round_trip_spec fqBls frBls 3).1 (by decide) (by decide)⟩

/-- Counterexample to claim C5 as stated: over the BLS12-377 pair the target
bit length is 253, but `fq_to_fr_with_mask (2 ^ 250)` is `0`, not the low
253 bits of the input (which are `2 ^ 250` itself): only the low
`8 * (253 / 8) = 248` bits survive. -/
theorem fq_to_fr_with_mask_low_bits_counterexample :
    fq_to_fr_with_mask fqBls frBls (2 ^ 250) = some 0
    ∧ 2 ^ 250 % 2 ^ frBls.bits = 2 ^ 250
    ∧ (0 : Nat) ≠ 2 ^ 250 := by
  refine ⟨by decide, by decide, by decide⟩

/-- Claim C5 (amended): for a target field of strictly smaller bit length,
`fq_to_fr_with_mask` keeps exactly the low `8 * (target_bits / 8)` bits of
the input (not the low `target_bits` bits); when the target bit length is not
a multiple of 8 the retained value is already below the target modulus, so no
modular reduction occurs; when the target bit length is not strictly smaller
the assertion fails. -/
theorem fq_to_fr_with_mask_masks_low_bytes (F T : PF) (x : Nat) :
    (T.bits < F.bits → T.bits % 8 ≠ 0 →
      fq_to_fr_with_mask F T x = some (x % 2 ^ (8 * (T.bits / 8)))
      ∧ x % 2 ^ (8 * (T.bits / 8)) < T.p)
    ∧ (¬ T.bits < F.bits → fq_to_fr_with_mask F T x = none) := by
  constructor
  · intro h h8
    have heq := fq_to_fr_with_mask_eq F T x h
    have hlt := mask_lt_p T x h8
    rw [heq, Nat.mod_eq_of_lt hlt]
    exact ⟨rfl, hlt⟩
  · intro h
    simp [fq_to_fr_with_mask, h]

/-- Witness for the amended claim C5 at the BLS12-377 pair. -/
theorem fq_to_fr_with_mask_masks_low_bytes_witness :
    (frBls.bits < fqBls.bits ∧ frBls.bits % 8 ≠ 0)
    ∧ fq_to_fr_with_mask fqBls frBls (2 ^ 250 + 5)
        = some ((2 ^ 250 + 5) % 2 ^ (8 * (frBls.bits / 8))) :=
  ⟨⟨by decide, by decide⟩,
    ((fq_to_fr_with_mask_masks_low_bytes fqBls frBls (2 ^ 250 + 5)).1
      (by decide) (by decide)).1⟩

/-- Claim C6: the output of `fq_to_fr_with_mask` is always strictly below the
target modulus, and re-applying the conversion with the same target to the
output returns the output unchanged (idempotence). -/
theorem fq_to_fr_with_mask_lt_and_idempotent (F T : PF) (x r : Nat)
    (h : fq_to_fr_with_mask F T x = some r) :
    r < T.p ∧ fq_to_fr_with_mask F T r = some r := by
  have hb : T.bits < F.bits := by
    by_contra hc
    simp [fq_to_fr_with_mask, hc] at h
  rw [fq_to_fr_with_mask_eq F T x hb] at h
  have hr : x % 2 ^ (8 * (T.bits / 8)) % T.p = r := by
    simpa using h
  have hrp : r < T.p := by
    rw [← hr]
    exact Nat.mod_lt _ T.p_pos
  refine ⟨hrp, ?_⟩
  have h1 : r < 2 ^ (8 * (T.bits / 8)) := by
    rw [← hr]
    exact Nat.lt_of_le_of_lt (Nat.mod_le _ _)
      (Nat.mod_lt _ (Nat.pos_pow_of_pos _ (by decide)))
  rw [fq_to_fr_with_mask_eq F T r hb, Nat.mod_eq_of_lt h1, Nat.mod_eq_of_lt hrp]

/-- Witness for claim C6 at the BLS12-377 pair and `x = 7`. -/
theorem fq_to_fr_with_mask_lt_and_idempotent_witness :
    fq_to_fr_with_mask fqBls frBls 7 = some 7
    ∧ (7 < frBls.p ∧ fq_to_fr_with_mask fqBls frBls 7 = some 7) :=
  ⟨by decide, fq_to_fr_with_mask_lt_and_idempotent fqBls frBls 7 7 (by decide)⟩

/-- Claim C7: `bytes_to_field_elements` equals right-zero-padding to a
multiple of `floor(bits / 8)` bytes, chunking, and decoding each chunk in
input order with no modular reduction (each chunk decodes strictly below the
modulus); the output length is `ceil(len / floor(bits / 8))`; and appending
zero bytes up to the next chunk boundary leaves the result unchanged. -/
theorem bytes_to_field_elements_spec (F : PF) (b : List Nat)
    (hbytes : ∀ x ∈ b, x < 256) (ht : 0 < F.bits / 8) (h8 : F.bits % 8 ≠ 0) :
    bytes_to_field_elements F b
        = (chunks (F.bits / 8) (zero_padded (F.bits / 8) b)).map ofLE
    ∧ (∀ c ∈ chunks (F.bits / 8) (zero_padded (F.bits / 8) b), ofLE c < F.p)
    ∧ (bytes_to_field_elements F b).length = (b.length + F.bits / 8 - 1) / (F.bits / 8)
    ∧ (∀ k, b.length + k ≤ (b.length + F.bits / 8 - 1) / (F.bits / 8) * (F.bits / 8) →
        bytes_to_field_elements F (b ++ List.replicate k 0)
          = bytes_to_field_elements F b) := by
  refine ⟨bytes_to_field_elements_eq F b hbytes h8, ?_,
    bytes_to_field_elements_length F b ht,
    fun k hk => bytes_to_field_elements_append_zeros F b ht k hk⟩
  intro c hc
  have hm := chunks_mem (F.bits / 8) (zero_padded (F.bits / 8) b) c hc
  have hball : ∀ x ∈ zero_padded (F.bits / 8) b, x < 256 := by
    intro x hx
    rcases List.mem_append.mp hx with hx | hx
    · exact hbytes x hx
    · rw [List.eq_of_mem_replicate hx]
      decide
  exact chunk_decode_lt F h8 c hm.1 (fun x hx => hball x (hm.2 x hx))

/-- A small 61-bit prime field used as a concrete witness instance
(modulus `2 ^ 61 - 1`, one 8-byte limb). -/
def f61 : PF where
  p := 2305843009213693951
  bits := 61
  reprLen := 8
  one_lt := by decide
  bits_lo := by decide
  bits_hi := by decide
  repr_fit := by decide

/-- Witness for claim C7 on the 61-bit field and the byte string `[1, 2, 3]`. -/
theorem bytes_to_field_elements_spec_witness :
    ((∀ x ∈ [1, 2, 3], x < 256) ∧ 0 < f61.bits / 8 ∧ f61.bits % 8 ≠ 0)
    ∧ (bytes_to_field_elements f61 [1, 2, 3]).length
        = (([1, 2, 3] : List Nat).length + f61.bits / 8 - 1) / (f61.bits / 8) :=
  ⟨⟨by decide, by decide, by decide⟩,
    (bytes_to_field_elements_spec f61 [1, 2, 3] (by decide) (by decide)
      (by decide)).2.2.1⟩

/- ### In-circuit rescue transcript
(`plonk/src/circuit/customized/transcript/mod.rs`).

The constraint system, the sponge gadget and the truncation gadget are
collaborators outside this module: they are kept abstract as a bundle of
operations over an abstract circuit type `C` and variable type `V`. -/

/-- Sponge state width of `jf_rescue`. -/
def STATE_SIZE : Nat := 4

/-- Embedding of `PlonkError`: the transcript code distinguishes only
`SnarkError::ParameterError` from every other error kind. -/
inductive PlonkError where
  | parameterError (msg : String)
  | otherError
deriving DecidableEq

/-- A point variable in twisted-Edwards form, exposing its coordinate
variables through `get_x` / `get_y`. -/
structure PointVariable (V : Type) where
  get_x : V
  get_y : V
deriving DecidableEq

/-- The part of `VerifyingKeyVar` read by `append_vk_and_pub_input_vars`:
the ordered selector and sigma commitment variables. -/
structure VerifyingKeyVar (V : Type) where
  selector_comms : List (PointVariable V)
  sigma_comms : List (PointVariable V)
deriving DecidableEq

/-- The collaborator operations consumed from the constraint system, over an
abstract circuit state `C` and variable handles `V`:
`zero`, `support_lookup`, `rescue_sponge_with_padding` and `truncate`.
`sponge_len` is the collaborator contract — modelled from the spec: the
sponge-hash gadget produces a fixed-width output of the requested length.
`truncate` returning `none` models the truncation gadget failing with a
non-parameter error — modelled from the spec: parameter errors arise only
from the two precondition checks. -/
structure CircuitOps (C V : Type) where
  zero : C → V
  support_lookup : C → Bool
  rescue_sponge_with_padding : C → List V → Nat → List V × C
  truncate : C → V → Nat → Option (V × C)
  sponge_len : ∀ c input n, (rescue_sponge_with_padding c input n).1.length = n

/-- Embedding of `RescueTranscriptVar`: the growable message buffer
`transcript_var` and the sponge state `state_var` (kept as a list whose
length is `STATE_SIZE`). -/
structure RescueTranscriptVar (V : Type) where
  transcript_var : List V
  state_var : List V
deriving DecidableEq

/-- Embedding of `RescueTranscriptVar::new`: empty buffer, state filled with
the circuit's zero variable. -/
def newTranscriptVar {C V : Type} (ops : CircuitOps C V) (c : C) : RescueTranscriptVar V :=
  { transcript_var := [], state_var := List.replicate STATE_SIZE (ops.zero c) }

/-- Embedding of `append_variable` (always returns `Ok` in the source). -/
def append_variable {V : Type} (_label : List Nat) (var : V)
    (t : RescueTranscriptVar V) : RescueTranscriptVar V :=
  { t with transcript_var := t.transcript_var ++ [var] }

/-- Embedding of `append_message_vars`: append each variable in order. -/
def append_message_vars {V : Type} (_label : List Nat) (msg_vars : List V)
    (t : RescueTranscriptVar V) : RescueTranscriptVar V :=
  msg_vars.foldl (fun acc v => append_variable _label v acc) t

/-- Embedding of `append_commitment_var`: push the x then the y coordinate. -/
def append_commitment_var {V : Type} (_label : List Nat) (poly_comm_var : PointVariable V)
    (t : RescueTranscriptVar V) : RescueTranscriptVar V :=
  { t with transcript_var := t.transcript_var ++ [poly_comm_var.get_x, poly_comm_var.get_y] }

/-- Embedding of `append_commitments_vars`: push x then y for each point in
order. -/
def append_commitments_vars {V : Type} (_label : List Nat)
    (poly_comm_vars : List (PointVariable V)) (t : RescueTranscriptVar V) :
    RescueTranscriptVar V :=
  poly_comm_vars.foldl
    (fun acc p => { acc with transcript_var := acc.transcript_var ++ [p.get_x, p.get_y] }) t

/-- Embedding of `append_challenge_var`: delegates to `append_variable`. -/
def append_challenge_var {V : Type} (_label : List Nat) (challenge_var : V)
    (t : RescueTranscriptVar V) : RescueTranscriptVar V :=
  append_variable _label challenge_var t

/-- The `FpElemVar::convert_to_var` collaborator call threaded through the
circuit, one public-input limb at a time, in order. -/
def convert_pub_input {C V A : Type} (conv : C → A → Option (V × C)) :
    C → List A → Option (List V × C)
  | c, [] => some ([], c)
  | c, e :: rest =>
    match conv c e with
    | none => none
    | some (v, c1) =>
      match convert_pub_input conv c1 rest with
      | none => none
      | some (vs, c2) => some (v :: vs, c2)

/-- Embedding of `append_vk_and_pub_input_vars`: selector commitment
coordinates, then sigma commitment coordinates, then one converted variable
per public-input limb. -/
def append_vk_and_pub_input_vars {C V A : Type} (conv : C → A → Option (V × C))
    (vk_var : VerifyingKeyVar V) (pub_input : List A)
    (t : RescueTranscriptVar V) (c : C) : Option (RescueTranscriptVar V × C) :=
  let tv1 := vk_var.selector_comms.foldl
    (fun acc com => acc ++ [com.get_x, com.get_y]) t.transcript_var
  let tv2 := vk_var.sigma_comms.foldl
    (fun acc com => acc ++ [com.get_x, com.get_y]) tv1
  match convert_pub_input conv c pub_input with
  | none => none
  | some (pub_vars, c2) =>
    some ({ transcript_var := tv2 ++ pub_vars, state_var := t.state_var }, c2)

/-- Embedding of `get_and_append_challenge_var` (lines 175-218).  `frBits`
and `fqBits` stand for `E::Fr::size_in_bits()` and `E::Fq::size_in_bits()`.
The triple returned mirrors the Rust `&mut self` signature: the result, the
transcript after the call, and the circuit after the call; error paths leave
the transcript as it was. -/
def get_and_append_challenge_var {C V : Type} (ops : CircuitOps C V)
    (frBits fqBits : Nat) (_label : List Nat)
    (t : RescueTranscriptVar V) (c : C) :
    Except PlonkError V × RescueTranscriptVar V × C :=
  if ops.support_lookup c = false then
    (.error (.parameterError "does not support range table"), t, c)
  else if frBits ≠ 253 ∨ fqBits ≠ 377 then
    (.error (.parameterError "Curve Parameter does not support for rescue transcript circuit"),
      t, c)
  else
    let input_var := t.state_var ++ t.transcript_var
    let res := ops.rescue_sponge_with_padding c input_var STATE_SIZE
    match res.1.head? with
    | none => (.error .otherError, t, res.2)
    | some out_var =>
      match ops.truncate res.2 out_var 248 with
      | none => (.error .otherError, t, res.2)
      | some (challenge_var, c2) =>
        (.ok challenge_var,
          append_challenge_var _label challenge_var
            { transcript_var := [], state_var := res.1.take STATE_SIZE },
          c2)

/- ### Transcript helper lemmas -/

theorem append_message_vars_eq {V : Type} (label : List Nat) (vs : List V)
    (t : RescueTranscriptVar V) :
    append_message_vars label vs t
      = { transcript_var := t.transcript_var ++ vs, state_var := t.state_var } := by
  induction vs generalizing t with
  | nil => simp [append_message_vars]
  | cons v rest ih =>
    simp only [append_message_vars, List.foldl_cons] at ih ⊢
    rw [ih]
    simp [append_variable]

/-- The x-then-y coordinate list of a list of points, in order. -/
def pointCoords {V : Type} (ps : List (PointVariable V)) : List V :=
  ps.foldr (fun com acc => com.get_x :: com.get_y :: acc) []

theorem foldl_pointCoords {V : Type} (ps : List (PointVariable V)) (init : List V) :
    ps.foldl (fun acc com => acc ++ [com.get_x, com.get_y]) init
      = init ++ pointCoords ps := by
  induction ps generalizing init with
  | nil => simp [pointCoords]
  | cons p rest ih =>
    simp only [pointCoords, List.foldl_cons, List.foldr_cons] at ih ⊢
    rw [ih]
    simp [pointCoords]

theorem convert_pub_input_length {C V A : Type} (conv : C → A → Option (V × C)) :
    ∀ (l : List A) (c : C) (vs : List V) (c2 : C),
      convert_pub_input conv c l = some (vs, c2) → vs.length = l.length := by
  intro l
  induction l with
  | nil =>
    intro c vs c2 h
    simp only [convert_pub_input, Option.some.injEq, Prod.mk.injEq] at h
    rw [← h.1]
    rfl
  | cons a rest ih =>
    intro c vs c2 h
    simp only [convert_pub_input] at h
    cases hc : conv c a with
    | none => rw [hc] at h; exact absurd h (by simp)
    | some vc =>
      obtain ⟨v, c1⟩ := vc
      rw [hc] at h
      simp only at h
      cases hr : convert_pub_input conv c1 rest with
      | none => simp [hr] at h
      | some vsc =>
        obtain ⟨vs1, c3⟩ := vsc
        simp only [hr, Option.some.injEq, Prod.mk.injEq] at h
        rcases h with ⟨h1, _⟩
        rw [← h1]
        simp [ih c1 vs1 c3 hr]

/- ### Claim theorems for the transcript -/

/-- Claim C2: on success, the new state is the full `STATE_SIZE`-element
sponge output of `state ++ buffer`, the returned challenge is the 248-bit
truncation of sponge output slot 0, and the buffer afterwards is exactly the
one-element list holding that challenge. -/
theorem get_and_append_challenge_var_success_spec {C V : Type} (ops : CircuitOps C V)
    (frBits fqBits : Nat) (label : List Nat) (t : RescueTranscriptVar V) (c : C)
    (ch : V) (t' : RescueTranscriptVar V) (c' : C)
    (h : get_and_append_challenge_var ops frBits fqBits label t c = (.ok ch, t', c')) :
    t'.state_var
        = (ops.rescue_sponge_with_padding c (t.state_var ++ t.transcript_var) STATE_SIZE).1
    ∧ (∃ out rest,
        (ops.rescue_sponge_with_padding c (t.state_var ++ t.transcript_var) STATE_SIZE).1
          = out :: rest
        ∧ ops.truncate
            (ops.rescue_sponge_with_padding c (t.state_var ++ t.transcript_var) STATE_SIZE).2
            out 248 = some (ch, c'))
    ∧ t'.transcript_var = [ch] := by
  have hlen := ops.sponge_len c (t.state_var ++ t.transcript_var) STATE_SIZE
  simp only [get_and_append_challenge_var] at h
  split at h
  · simp at h
  · split at h
    · simp at h
    · split at h
      · simp at h
      · rename_i out_var hh
        split at h
        · simp at h
        · rename_i chv c2 htr
          simp only [Prod.mk.injEq] at h
          obtain ⟨h1, h2, h3⟩ := h
          injection h1 with h1
          subst h1 h2 h3
          have htk : (ops.rescue_sponge_with_padding c
              (t.state_var ++ t.transcript_var) STATE_SIZE).1.take STATE_SIZE
              = (ops.rescue_sponge_with_padding c
                  (t.state_var ++ t.transcript_var) STATE_SIZE).1 :=
            List.take_of_length_le (Nat.le_of_eq hlen)
          refine ⟨?_, ⟨out_var, ?_⟩, ?_⟩
          · simp [append_challenge_var, append_variable, htk]
          · rcases hcons : (ops.rescue_sponge_with_padding c
                (t.state_var ++ t.transcript_var) STATE_SIZE).1 with _ | ⟨a, rest⟩
            · rw [hcons] at hh
              simp at hh
            · rw [hcons] at hh
              simp only [List.head?_cons, Option.some.injEq] at hh
              exact ⟨rest, by rw [hh], htr⟩
          · simp [append_challenge_var, append_variable]

/-- Claim C3: the call returns a parameter error exactly when the circuit
lacks lookup support or the scalar/base bit lengths are not 253/377; gadget
failures surface as non-parameter errors. -/
theorem get_and_append_challenge_var_param_error_iff {C V : Type} (ops : CircuitOps C V)
    (frBits fqBits : Nat) (label : List Nat) (t : RescueTranscriptVar V) (c : C) :
    (∃ msg, (get_and_append_challenge_var ops frBits fqBits label t c).1
        = .error (.parameterError msg))
    ↔ (ops.support_lookup c = false ∨ frBits ≠ 253 ∨ fqBits ≠ 377) := by
  simp only [get_and_append_challenge_var]
  split
  · rename_i hsup
    simp [hsup]
  · rename_i hsup
    split
    · rename_i hbits
      simp only [Bool.not_eq_false] at hsup
      simp [hsup, hbits]
    · rename_i hbits
      constructor
      · intro hmsg
        exfalso
        obtain ⟨msg, hmsg⟩ := hmsg
        split at hmsg
        · simp at hmsg
        · split at hmsg
          · simp at hmsg
          · simp at hmsg
      · intro hor
        exfalso
        simp only [Bool.not_eq_false] at hsup
        rcases hor with hor | hor
        · rw [hsup] at hor
          simp at hor
        · exact hbits hor

/-- Claim C10: every error path of `get_and_append_challenge_var` leaves the
transcript's state array and buffer exactly as they were before the call. -/
theorem get_and_append_challenge_var_error_atomic {C V : Type} (ops : CircuitOps C V)
    (frBits fqBits : Nat) (label : List Nat) (t : RescueTranscriptVar V) (c : C)
    (e : PlonkError) (t2 : RescueTranscriptVar V) (c2 : C)
    (h : get_and_append_challenge_var ops frBits fqBits label t c = (.error e, t2, c2)) :
    t2 = t := by
  simp only [get_and_append_challenge_var] at h
  split at h
  · simp only [Prod.mk.injEq] at h
    exact h.2.1.symm
  · split at h
    · simp only [Prod.mk.injEq] at h
      exact h.2.1.symm
    · split at h
      · simp only [Prod.mk.injEq] at h
        exact h.2.1.symm
      · split at h
        · simp only [Prod.mk.injEq] at h
          exact h.2.1.symm
        · rename_i chv cc htr
          simp at h

/-- Claim C9: every label-taking transcript operation ignores its label: any
two labels give identical results, transcript and circuit state. -/
theorem transcript_labels_ignored {C V : Type} (ops : CircuitOps C V)
    (frBits fqBits : Nat) (l1 l2 : List Nat) (v : V) (vs : List V)
    (p : PointVariable V) (ps : List (PointVariable V))
    (t : RescueTranscriptVar V) (c : C) :
    append_variable l1 v t = append_variable l2 v t
    ∧ append_message_vars l1 vs t = append_message_vars l2 vs t
    ∧ append_commitment_var l1 p t = append_commitment_var l2 p t
    ∧ append_commitments_vars l1 ps t = append_commitments_vars l2 ps t
    ∧ append_challenge_var l1 v t = append_challenge_var l2 v t
    ∧ get_and_append_challenge_var ops frBits fqBits l1 t c
        = get_and_append_challenge_var ops frBits fqBits l2 t c :=
  ⟨rfl, rfl, rfl, rfl, rfl, rfl⟩

/-- Claim C8: `append_vk_and_pub_input_vars` appends, in order, the selector
commitment coordinate pairs, the sigma commitment coordinate pairs, and one
converted variable per public-input limb, leaving the state untouched; on an
empty verifying key and empty public input it appends nothing. -/
theorem append_vk_and_pub_input_vars_spec {C V A : Type}
    (conv : C → A → Option (V × C)) (vk_var : VerifyingKeyVar V)
    (pub_input : List A) (t : RescueTranscriptVar V) (c : C) :
    (∀ t' c', append_vk_and_pub_input_vars conv vk_var pub_input t c = some (t', c') →
      ∃ pub_vars c2, convert_pub_input conv c pub_input = some (pub_vars, c2)
        ∧ pub_vars.length = pub_input.length
        ∧ c' = c2
        ∧ t'.transcript_var
            = t.transcript_var ++ pointCoords vk_var.selector_comms
                ++ pointCoords vk_var.sigma_comms ++ pub_vars
        ∧ t'.state_var = t.state_var)
    ∧ append_vk_and_pub_input_vars conv ⟨[], []⟩ [] t c = some (t, c) := by
  constructor
  · intro t' c' h
    simp only [append_vk_and_pub_input_vars, foldl_pointCoords] at h
    cases hcv : convert_pub_input conv c pub_input with
    | none => rw [hcv] at h; simp at h
    | some pc =>
      obtain ⟨pub_vars, c2⟩ := pc
      rw [hcv] at h
      simp only [Option.some.injEq, Prod.mk.injEq] at h
      obtain ⟨h1, h2⟩ := h
      refine ⟨pub_vars, c2, rfl, convert_pub_input_length conv pub_input c _ _ hcv,
        h2.symm, ?_, ?_⟩
      · rw [← h1]
      · rw [← h1]
  · simp [append_vk_and_pub_input_vars, convert_pub_input]

/- ### Concrete circuit instances used by the witnesses -/

/-- A tiny concrete circuit model: variables are their witness values, the
sponge outputs `sum of inputs + 1` in every slot, truncation takes the low
bits. -/
def demoOps : CircuitOps Unit Nat where
  zero := fun _ => 0
  support_lookup := fun _ => true
  rescue_sponge_with_padding := fun c input n =>
    (List.replicate n (input.foldr (· + ·) 0 + 1), c)
  truncate := fun c v n => some (v % 2 ^ n, c)
  sponge_len := by
    intro c input n
    simp

/-- The demo circuit with lookup support turned off. -/
def demoOpsNoLookup : CircuitOps Unit Nat :=
  { demoOps with support_lookup := fun _ => false }

/-- Witness for claim C2: a concrete successful derivation on the demo
circuit. -/
theorem get_and_append_challenge_var_success_spec_witness :
    get_and_append_challenge_var demoOps 253 377 [] ⟨[], [0, 0, 0, 0]⟩ ()
      = (.ok 1, ⟨[1], [1, 1, 1, 1]⟩, ())
    ∧ (⟨[1], [1, 1, 1, 1]⟩ : RescueTranscriptVar Nat).state_var
        = (demoOps.rescue_sponge_with_padding ()
            (([0, 0, 0, 0] : List Nat) ++ []) STATE_SIZE).1
    ∧ (∃ out rest,
        (demoOps.rescue_sponge_with_padding ()
            (([0, 0, 0, 0] : List Nat) ++ []) STATE_SIZE).1 = out :: rest
        ∧ demoOps.truncate
            (demoOps.rescue_sponge_with_padding ()
              (([0, 0, 0, 0] : List Nat) ++ []) STATE_SIZE).2
            out 248 = some (1, ()))
    ∧ (⟨[1], [1, 1, 1, 1]⟩ : RescueTranscriptVar Nat).transcript_var = [1] := by
  have hrun : get_and_append_challenge_var demoOps 253 377 []
      (⟨[], [0, 0, 0, 0]⟩ : RescueTranscriptVar Nat) ()
      = (.ok 1, ⟨[1], [1, 1, 1, 1]⟩, ()) := by
    simp [get_and_append_challenge_var, demoOps, append_challenge_var, append_variable,
      STATE_SIZE, List.replicate]
  exact ⟨hrun,
    get_and_append_challenge_var_success_spec demoOps 253 377 [] ⟨[], [0, 0, 0, 0]⟩ ()
      1 ⟨[1], [1, 1, 1, 1]⟩ () hrun⟩

/-- Witness for claim C10: a failed precondition leaves the transcript
untouched. -/
theorem get_and_append_challenge_var_error_atomic_witness :
    get_and_append_challenge_var demoOpsNoLookup 253 377 []
        (⟨[7], [0, 0, 0, 0]⟩ : RescueTranscriptVar Nat) ()
      = (.error (.parameterError "does not support range table"), ⟨[7], [0, 0, 0, 0]⟩, ())
    ∧ (⟨[7], [0, 0, 0, 0]⟩ : RescueTranscriptVar Nat) = ⟨[7], [0, 0, 0, 0]⟩ :=
  ⟨rfl,
    get_and_append_challenge_var_error_atomic demoOpsNoLookup 253 377 []
      ⟨[7], [0, 0, 0, 0]⟩ () (.parameterError "does not support range table")
      ⟨[7], [0, 0, 0, 0]⟩ () rfl⟩

/-- A demo limb conversion for the C8 witness: every limb converts to the
variable `9`. -/
def demoConv : Unit → Unit → Option (Nat × Unit) := fun c _ => some (9, c)

/-- A demo verifying key with one selector and one sigma commitment. -/
def demoVk : VerifyingKeyVar Nat := ⟨[⟨1, 2⟩], [⟨3, 4⟩]⟩

/-- Witness for claim C8: concrete ordering of the appended coordinates and
converted public input. -/
theorem append_vk_and_pub_input_vars_spec_witness :
    append_vk_and_pub_input_vars demoConv demoVk [()] (⟨[], [0]⟩ : RescueTranscriptVar Nat) ()
      = some (⟨[1, 2, 3, 4, 9], [0]⟩, ())
    ∧ (∃ pub_vars c2, convert_pub_input demoConv () [()] = some (pub_vars, c2)
        ∧ pub_vars.length = ([()] : List Unit).length
        ∧ () = c2
        ∧ (⟨[1, 2, 3, 4, 9], [0]⟩ : RescueTranscriptVar Nat).transcript_var
            = (⟨[], [0]⟩ : RescueTranscriptVar Nat).transcript_var
                ++ pointCoords demoVk.selector_comms
                ++ pointCoords demoVk.sigma_comms ++ pub_vars
        ∧ (⟨[1, 2, 3, 4, 9], [0]⟩ : RescueTranscriptVar Nat).state_var
            = (⟨[], [0]⟩ : RescueTranscriptVar Nat).state_var) := by
  have hrun : append_vk_and_pub_input_vars demoConv demoVk [()]
      (⟨[], [0]⟩ : RescueTranscriptVar Nat) () = some (⟨[1, 2, 3, 4, 9], [0]⟩, ()) := rfl
  exact ⟨hrun,
    (append_vk_and_pub_input_vars_spec demoConv demoVk [()] ⟨[], [0]⟩ ()).1
      ⟨[1, 2, 3, 4, 9], [0]⟩ () hrun⟩

/- ### Refinement against the native transcript (claim C1) -/

/-- Modelled from the spec: the witness-level contracts of the collaborator
gadgets, which are outside this module (spec section 6 and section 4.2 steps
4-5).  `w` is an assignment of witness values to all circuit variables;
`spongeNat` is the native rescue sponge over values.  `sponge_spec` says the
sponge gadget's output witnesses are the native sponge of the input
witnesses; `truncate_spec` says the truncation gadget's output witness keeps
exactly the low `n` bits; `zero_spec` says the canonical zero variable
carries the value 0. -/
structure GadgetModel (C V : Type) extends CircuitOps C V where
  w : V → Nat
  spongeNat : List Nat → Nat → List Nat
  sponge_spec : ∀ c input n,
    ((rescue_sponge_with_padding c input n).1).map w = spongeNat (input.map w) n
  truncate_spec : ∀ c v n v2 c2, truncate c v n = some (v2, c2) → w v2 = w v % 2 ^ n
  zero_spec : ∀ c, w (zero c) = 0

/-- Modelled from the spec: the native `RescueTranscript` (its source is not
under `src/`): a buffer and a `STATE_SIZE`-wide sponge state over field
values, state initialised to zeros. -/
structure RescueTranscript where
  transcript : List Nat
  state : List Nat
deriving DecidableEq

/-- Modelled from the spec: native transcript construction. -/
def newNativeTranscript : RescueTranscript :=
  { transcript := [], state := List.replicate STATE_SIZE 0 }

/-- Modelled from the spec: native appends push the message field values in
order. -/
def native_append_msgs (vals : List Nat) (t : RescueTranscript) : RescueTranscript :=
  { t with transcript := t.transcript ++ vals }

/-- Modelled from the spec: the native challenge derivation — sponge the
state and buffer, convert slot 0 into the 253-bit scalar field by the
byte-masking truncation (the source's `fq_to_fr_with_mask` at the BLS12-377
field pair, which keeps the low 248 bits), ratchet the state, and re-seed the
buffer with the challenge. -/
def native_get_and_append_challenge (spongeNat : List Nat → Nat → List Nat)
    (t : RescueTranscript) : Nat × RescueTranscript :=
  let input := t.state ++ t.transcript
  let output := spongeNat input STATE_SIZE
  let challenge := (fq_to_fr_with_mask fqBls frBls (output.headD 0)).getD 0
  (challenge, { transcript := [challenge], state := output.take STATE_SIZE })

/-- A transcript interaction: append a batch of message variables, or derive
a challenge. -/
inductive TOp (V : Type) where
  | append (vars : List V)
  | derive

/-- The same interaction sequence seen at witness level. -/
def mapTOp {V : Type} (w : V → Nat) : TOp V → TOp Nat
  | .append vs => .append (vs.map w)
  | .derive => .derive

/-- Run a sequence of interactions against the in-circuit transcript,
collecting the challenge variables. -/
def runCircuit {C V : Type} (M : GadgetModel C V) (label : List Nat) :
    List (TOp V) → RescueTranscriptVar V → C →
      Except PlonkError (List V × RescueTranscriptVar V × C)
  | [], t, c => .ok ([], t, c)
  | .append vs :: rest, t, c =>
    runCircuit M label rest (append_message_vars label vs t) c
  | .derive :: rest, t, c =>
    match get_and_append_challenge_var M.toCircuitOps 253 377 label t c with
    | (.ok ch, t1, c1) =>
      match runCircuit M label rest t1 c1 with
      | .error e => .error e
      | .ok (chs, t2, c2) => .ok (ch :: chs, t2, c2)
    | (.error e, _, _) => .error e

/-- Run the same interaction sequence against the native transcript,
collecting the challenges. -/
def runNative (spongeNat : List Nat → Nat → List Nat) :
    List (TOp Nat) → RescueTranscript → List Nat × RescueTranscript
  | [], t => ([], t)
  | .append vs :: rest, t => runNative spongeNat rest (native_append_msgs vs t)
  | .derive :: rest, t =>
    let p1 := native_get_and_append_challenge spongeNat t
    let p2 := runNative spongeNat rest p1.2
    (p1.1 :: p2.1, p2.2)

/-- The byte-masking conversion at the concrete BLS12-377 pair keeps exactly
the low 248 bits. -/
theorem fq_to_fr_with_mask_bls (x : Nat) :
    fq_to_fr_with_mask fqBls frBls x = some (x % 2 ^ 248) := by
  have h := fq_to_fr_with_mask_eq fqBls frBls x (by decide)
  have h2 : 8 * (frBls.bits / 8) = 248 := by decide
  rw [h, h2, Nat.mod_eq_of_lt]
  exact Nat.lt_of_lt_of_le (Nat.mod_lt _ (Nat.pos_pow_of_pos _ (by decide)))
    (by decide)

/-- Success characterisation of a single challenge derivation, used by the
simulation argument. -/
theorem get_and_append_challenge_var_ok {C V : Type} (ops : CircuitOps C V)
    (frBits fqBits : Nat) (label : List Nat) (t : RescueTranscriptVar V) (c : C)
    (ch : V) (t1 : RescueTranscriptVar V) (c1 : C)
    (h : get_and_append_challenge_var ops frBits fqBits label t c = (.ok ch, t1, c1)) :
    ∃ out rest,
      (ops.rescue_sponge_with_padding c (t.state_var ++ t.transcript_var) STATE_SIZE).1
        = out :: rest
      ∧ ops.truncate
          (ops.rescue_sponge_with_padding c (t.state_var ++ t.transcript_var) STATE_SIZE).2
          out 248 = some (ch, c1)
      ∧ t1 = { transcript_var := [ch],
               state_var := (ops.rescue_sponge_with_padding c
                 (t.state_var ++ t.transcript_var) STATE_SIZE).1 } := by
  have hlen := ops.sponge_len c (t.state_var ++ t.transcript_var) STATE_SIZE
  simp only [get_and_append_challenge_var] at h
  split at h
  · simp at h
  · split at h
    · simp at h
    · split at h
      · simp at h
      · rename_i out_var hh
        split at h
        · simp at h
        · rename_i chv c2 htr
          simp only [Prod.mk.injEq] at h
          obtain ⟨h1, h2, h3⟩ := h
          injection h1 with h1
          subst h1 h2 h3
          have htk : (ops.rescue_sponge_with_padding c
              (t.state_var ++ t.transcript_var) STATE_SIZE).1.take STATE_SIZE
              = (ops.rescue_sponge_with_padding c
                  (t.state_var ++ t.transcript_var) STATE_SIZE).1 :=
            List.take_of_length_le (Nat.le_of_eq hlen)
          rcases hcons : (ops.rescue_sponge_with_padding c
              (t.state_var ++ t.transcript_var) STATE_SIZE).1 with _ | ⟨a, rest⟩
          · rw [hcons] at hh
            simp at hh
          · rw [hcons] at hh hlen
            simp only [List.head?_cons, Option.some.injEq] at hh
            subst hh
            refine ⟨a, rest, rfl, htr, ?_⟩
            simp [append_challenge_var, append_variable,
              List.take_of_length_le (Nat.le_of_eq hlen)]

/-- The simulation invariant: if the native transcript mirrors the witness
values of the circuit transcript, then a successful circuit run produces
challenge variables whose witnesses are exactly the native challenges, and
every challenge witness fits in 248 bits. -/
theorem runCircuit_sim {C V : Type} (M : GadgetModel C V) (label : List Nat) :
    ∀ (trace : List (TOp V)) (t : RescueTranscriptVar V) (c : C)
      (tn : RescueTranscript) (chs : List V) (t' : RescueTranscriptVar V) (c' : C),
      tn.transcript = t.transcript_var.map M.w →
      tn.state = t.state_var.map M.w →
      runCircuit M label trace t c = .ok (chs, t', c') →
      (runNative M.spongeNat (trace.map (mapTOp M.w)) tn).1 = chs.map M.w
        ∧ ∀ v ∈ chs, M.w v < 2 ^ 248 := by
  intro trace
  induction trace with
  | nil =>
    intro t c tn chs t' c' hinv1 hinv2 h
    simp only [runCircuit, Except.ok.injEq, Prod.mk.injEq] at h
    rw [← h.1]
    simp [runNative]
  | cons op rest ih =>
    intro t c tn chs t' c' hinv1 hinv2 h
    cases op with
    | append vs =>
      simp only [runCircuit] at h
      simp only [List.map_cons, mapTOp, runNative]
      refine ih (append_message_vars label vs t) c (native_append_msgs (vs.map M.w) tn)
        chs t' c' ?_ ?_ h
      · simp [native_append_msgs, append_message_vars_eq, hinv1]
      · simp [native_append_msgs, append_message_vars_eq, hinv2]
    | derive =>
      simp only [runCircuit] at h
      rcases hga : get_and_append_challenge_var M.toCircuitOps 253 377 label t c
        with ⟨r, t1, c1⟩
      rw [hga] at h
      cases r with
      | error e => simp at h
      | ok ch =>
        dsimp only at h
        obtain ⟨out, outrest, hcons, htr, ht1⟩ :=
          get_and_append_challenge_var_ok M.toCircuitOps 253 377 label t c ch t1 c1 hga
        rcases hrec : runCircuit M label rest t1 c1 with e2 | ⟨chs2, t2, c2⟩
        · rw [hrec] at h
          simp at h
        · rw [hrec] at h
          simp only [Except.ok.injEq, Prod.mk.injEq] at h
          obtain ⟨hchs, ht2, hc2⟩ := h
          have hwch : M.w ch = M.w out % 2 ^ 248 :=
            M.truncate_spec _ out 248 ch c1 htr
          have houtmap : M.spongeNat ((t.state_var ++ t.transcript_var).map M.w) STATE_SIZE
              = M.w out :: outrest.map M.w := by
            rw [← M.sponge_spec c (t.state_var ++ t.transcript_var) STATE_SIZE, hcons]
            rfl
          have hlen2 : (M.w out :: outrest.map M.w).length = STATE_SIZE := by
            rw [← houtmap, ← M.sponge_spec c (t.state_var ++ t.transcript_var) STATE_SIZE,
              List.length_map]
            exact M.sponge_len c (t.state_var ++ t.transcript_var) STATE_SIZE
          have hnative : native_get_and_append_challenge M.spongeNat tn
              = (M.w ch,
                  { transcript := [M.w ch], state := M.w out :: outrest.map M.w }) := by
            simp only [native_get_and_append_challenge, hinv1, hinv2, ← List.map_append,
              houtmap, List.headD_cons, fq_to_fr_with_mask_bls, Option.getD_some,
              List.take_of_length_le (Nat.le_of_eq hlen2), hwch]
          have hih := ih t1 c1
            { transcript := [M.w ch], state := M.w out :: outrest.map M.w }
            chs2 t2 c2 (by rw [ht1]; rfl)
            (by rw [ht1]; simp only; rw [hcons]; rfl) hrec
          simp only [List.map_cons, mapTOp, runNative, hnative]
          constructor
          · rw [← hchs]
            simp only [List.map_cons]
            rw [hih.1]
          · intro v hv
            rw [← hchs] at hv
            rcases List.mem_cons.mp hv with rfl | hv2
            · rw [hwch]
              exact Nat.mod_lt _ (Nat.pos_pow_of_pos _ (by decide))
            · exact hih.2 v hv2

/-- Claim C1: for every assignment of witness values to the appended
variables, every challenge variable a successful circuit run derives carries,
after the safe field switch into the 253-bit scalar field, exactly the
challenge the native transcript produces from the semantically equivalent
native append/derive sequence on the same messages. -/
theorem circuit_transcript_refines_native {C V : Type} (M : GadgetModel C V)
    (label : List Nat) (trace : List (TOp V)) (c0 : C)
    (chs : List V) (t' : RescueTranscriptVar V) (c' : C)
    (h : runCircuit M label trace (newTranscriptVar M.toCircuitOps c0) c0
          = .ok (chs, t', c')) :
    chs.map (fun v => field_switching fqBls frBls (M.w v))
      = ((runNative M.spongeNat (trace.map (mapTOp M.w)) newNativeTranscript).1).map
          some := by
  have hsim := runCircuit_sim M label trace (newTranscriptVar M.toCircuitOps c0) c0
    newNativeTranscript chs t' c'
    (by simp [newNativeTranscript, newTranscriptVar])
    (by simp [newNativeTranscript, newTranscriptVar, List.map_replicate, M.zero_spec]) h
  rw [hsim.1, List.map_map]
  apply List.map_congr_left
  intro v hv
  have hb := hsim.2 v hv
  have h1 : M.w v < fqBls.p := Nat.lt_of_lt_of_le hb (by decide)
  have h2 : M.w v < frBls.p := Nat.lt_of_lt_of_le hb (by decide)
  exact field_switching_eq_some fqBls frBls (M.w v) h1 h2

/-- The demo circuit model together with the witness valuation (variables are
their own values) and a concrete sponge function satisfying the gadget
contracts. -/
def demoGadget : GadgetModel Unit Nat where
  toCircuitOps := demoOps
  w := id
  spongeNat := fun input n => List.replicate n (input.foldr (· + ·) 0 + 1)
  sponge_spec := by
    intro c input n
    simp [demoOps, List.map_replicate, List.map_id]
  truncate_spec := by
    intro c v n v2 c2 h
    simp only [demoOps, Option.some.injEq, Prod.mk.injEq] at h
    rw [← h.1]
    rfl
  zero_spec := fun _ => rfl

/-- Witness for claim C1: a concrete run (append the value 5, then derive)
on the demo model agrees with the native run after field switching. -/
theorem circuit_transcript_refines_native_witness :
    runCircuit demoGadget [] [TOp.append [5], TOp.derive]
        (newTranscriptVar demoGadget.toCircuitOps ()) ()
      = .ok ([6], ⟨[6], [6, 6, 6, 6]⟩, ())
    ∧ ([6] : List Nat).map (fun v => field_switching fqBls frBls (demoGadget.w v))
        = ((runNative demoGadget.spongeNat
            ([TOp.append [5], TOp.derive].map (mapTOp demoGadget.w))
            newNativeTranscript).1).map some := by
  have hrun : runCircuit demoGadget [] [TOp.append [5], TOp.derive]
      (newTranscriptVar demoGadget.toCircuitOps ()) ()
      = .ok ([6], ⟨[6], [6, 6, 6, 6]⟩, ()) := by
    simp [runCircuit, newTranscriptVar, demoGadget, demoOps, STATE_SIZE,
      append_message_vars_eq, get_and_append_challenge_var, append_challenge_var,
      append_variable, List.replicate]
  exact ⟨hrun,
    circuit_transcript_refines_native demoGadget [] [TOp.append [5], TOp.derive] ()
      [6] ⟨[6], [6, 6, 6, 6]⟩ () hrun⟩

end Jellyfish
